import Mathlib

/-!
Verification development for the backLinker repository.

The JavaScript pipeline code (src/lib/analyze.js, src/lib/groq.js,
scripts/buildSentences.js and the sibling historical variants of analyze.js)
is shallowly embedded here: strings are lists of characters, the Supabase
tables are lists of structures, and the external collaborators (network
fetches, the Groq oracle) are explicit function parameters.  Each embedded
definition carries a comment naming the source function it models.
-/

namespace Backlinker

abbrev Chars := List Char

/-- Models JavaScript `String.prototype.toLowerCase` on one character.
Faithful for ASCII input, which is the character range of the URLs and
page text this repository processes.  This is the same computation as
core `Char.toLower`; it is restated here so that its arithmetic is
available to the proofs below. -/
def lcChar (c : Char) : Char :=
  if 65 ≤ c.toNat ∧ c.toNat ≤ 90 then Char.ofNat (c.toNat + 32) else c

/-- Lower-casing of a whole string, as `str.toLowerCase()`. -/
def lowerL (s : Chars) : Chars := s.map lcChar

theorem lcChar_of_not_upper {c : Char} (h : ¬(65 ≤ c.toNat ∧ c.toNat ≤ 90)) :
    lcChar c = c := by
  simp [lcChar, h]

theorem toNat_lcChar_of_upper {c : Char} (h : 65 ≤ c.toNat ∧ c.toNat ≤ 90) :
    (lcChar c).toNat = c.toNat + 32 := by
  have hv : (c.toNat + 32).isValidChar := Or.inl (by omega)
  rw [lcChar, if_pos h]
  unfold Char.ofNat
  rw [dif_pos hv]
  simp [Char.ofNatAux, Char.toNat, UInt32.toNat]

theorem lcChar_idem (c : Char) : lcChar (lcChar c) = lcChar c := by
  by_cases h : 65 ≤ c.toNat ∧ c.toNat ≤ 90
  · have h32 := toNat_lcChar_of_upper h
    exact lcChar_of_not_upper (by omega)
  · simp [lcChar_of_not_upper h]

theorem lowerL_idem (s : Chars) : lowerL (lowerL s) = lowerL s := by
  induction s with
  | nil => rfl
  | cons c cs ih => simp [lowerL] at ih ⊢; exact ⟨lcChar_idem c, ih⟩

/-- If `d` is below the uppercase range, `lcChar` can only produce it from
`d` itself. -/
theorem lcChar_eq_low {c d : Char} (hd : d.toNat < 65) :
    lcChar c = d ↔ c = d := by
  constructor
  · intro h
    by_cases hu : 65 ≤ c.toNat ∧ c.toNat ≤ 90
    · have := toNat_lcChar_of_upper hu
      rw [h] at this
      omega
    · rwa [lcChar_of_not_upper hu] at h
  · intro h
    subst h
    exact lcChar_of_not_upper (by omega)

/-! ## URL normalizer (src/lib/analyze.js, `normalizeUrl`, lines 13-29) -/

/-- Models `str.replace(/^http:\/\//, 'https://')`. -/
def stripSchemeHttp (s : Chars) : Chars :=
  if ("http://".data).isPrefixOf s then "https://".data ++ s.drop 7 else s

/-- Models `str.replace(/^https:\/\/www\./, 'https://')`. -/
def stripWww (s : Chars) : Chars :=
  if ("https://www.".data).isPrefixOf s then "https://".data ++ s.drop 12 else s

/-- Models `str.replace(/\/$/, '')`: removes one trailing slash. -/
def stripTrailSlash (s : Chars) : Chars :=
  if s.getLast? = some '/' then s.dropLast else s

/-- Models `str.replace(/[?#].*$/, '')`.  In JavaScript `.` does not match a
newline and `$` (without the `m` flag) matches only at the end of the input,
so the regex fires at the first `?` or `#` that has no later newline. -/
def stripQueryFrag : Chars → Chars
  | [] => []
  | c :: rest =>
    if (c = '?' ∨ c = '#') ∧ ¬ rest.contains '\n' then []
    else c :: stripQueryFrag rest

/-- Character admitted in the host of the modeled URL grammar:
ASCII letters, digits, `-` (code 45) and `.` (code 46). -/
def isHostChar (c : Char) : Bool :=
  (97 ≤ c.toNat ∧ c.toNat ≤ 122) ∨ (65 ≤ c.toNat ∧ c.toNat ≤ 90) ∨
    (48 ≤ c.toNat ∧ c.toNat ≤ 57) ∨ c.toNat = 45 ∨ c.toNat = 46

/-- Character ending the host part: `/` (47), `?` (63) or `#` (35). -/
def isStopChar (c : Char) : Bool := c.toNat = 47 ∨ c.toNat = 63 ∨ c.toNat = 35

/-- Character ending the path part: `?` (63) or `#` (35). -/
def isPathStop (c : Char) : Bool := c.toNat = 63 ∨ c.toNat = 35

/-- Character admitted in the path of the modeled URL grammar: ASCII
letters, digits, `-` (45), `.` (46), `/` (47), `_` (95) and `~` (126). -/
def isPathChar (c : Char) : Bool :=
  (97 ≤ c.toNat ∧ c.toNat ≤ 122) ∨ (65 ≤ c.toNat ∧ c.toNat ≤ 90) ∨
    (48 ≤ c.toNat ∧ c.toNat ≤ 57) ∨ (45 ≤ c.toNat ∧ c.toNat ≤ 47) ∨
    c.toNat = 95 ∨ c.toNat = 126

/-- Case-insensitively consumes the (lowercase) pattern from the front of a
string, returning the remainder. -/
def dropCI : Chars → Chars → Option Chars
  | [], s => some s
  | _ :: _, [] => none
  | p :: ps, c :: cs => if lcChar c = p then dropCI ps cs else none

/-- Recognizes the `http://` / `https://` scheme of an absolute URL
(schemes are case-insensitive), returning whether it was `https` and the
remainder after `://`. -/
def schemeSplit (s : Chars) : Option (Bool × Chars) :=
  match dropCI "https://".data s with
  | some r => some (true, r)
  | none => (dropCI "http://".data s).map (fun r => (false, r))

/-- Models `new URL(u)` followed by `parsed.origin + parsed.pathname`, for
absolute `http(s)` URLs over a simple host/path grammar; returns `none`
outside that grammar (in the source the constructor then throws and the
caller falls back to string transforms).  The WHATWG constructor lower-cases
the host; the path is taken verbatim, so the model is faithful for paths
without dot segments or percent-encoded characters, which is the input class
used by every theorem below. -/
def parseHttpUrl (s : Chars) : Option Chars :=
  match schemeSplit s with
  | none => none
  | some (sec, rest) =>
    let host := rest.takeWhile (fun c => !isStopChar c)
    let after := rest.dropWhile (fun c => !isStopChar c)
    if host = [] ∨ ¬ host.all isHostChar then none
    else
      let path := after.takeWhile (fun c => !isPathStop c)
      if ¬ path.all isPathChar then none
      else
        let pathname := if path = [] then ['/'] else path
        some ((if sec then "https://".data else "http://".data) ++ lowerL host ++ pathname)

/-- Models `normalizeUrl` from src/lib/analyze.js lines 13-29 on character
lists: parse with the URL constructor when possible, otherwise fall back to
best-effort string transforms; in both branches lower-case, collapse
`http://` to `https://`, strip a leading `www.` and one trailing slash, and
in the fallback branch also strip the query string and fragment. -/
def normalizeUrlL (s : Chars) : Chars :=
  match parseHttpUrl s with
  | some op => stripTrailSlash (stripWww (stripSchemeHttp (lowerL op)))
  | none => stripTrailSlash (stripWww (stripSchemeHttp (stripQueryFrag (lowerL s))))

/-- String-level `normalizeUrl`. -/
def normalizeUrl (s : String) : String := ⟨normalizeUrlL s.data⟩

/-! ### Well-formed URL renderings used to state the normalizer claims -/

/-- A structured description of a URL naming one resource: scheme choice,
optional `www.` label, host, path, optional single trailing slash and an
optional query/fragment suffix. -/
structure UrlForm where
  secure : Bool
  www : Bool
  host : Chars
  path : Chars
  slash : Bool
  suffix : Chars

/-- Textual form of a `UrlForm`. -/
def renderUrl (u : UrlForm) : Chars :=
  (if u.secure then "https://".data else "http://".data)
    ++ (if u.www then "www.".data else [])
    ++ u.host ++ u.path ++ (if u.slash then ['/'] else []) ++ u.suffix

/-- Side conditions on a rendered host: nonempty, made of host characters,
and not itself beginning with `www.` (which the normalizer would strip). -/
def HostOk (h : Chars) : Prop :=
  h ≠ [] ∧ (∀ c ∈ h, isHostChar c) ∧ ("www.".data).isPrefixOf (lowerL h) = false

/-- Side conditions on a rendered path: empty, or slash-led path characters
without a trailing slash of its own. -/
def PathOk (p : Chars) : Prop :=
  p = [] ∨ (p.head? = some '/' ∧ (∀ c ∈ p, isPathChar c) ∧ p.getLast? ≠ some '/')

/-- Side condition on a query/fragment suffix: absent, or introduced by
`?` or `#`. -/
def SuffixOk (s : Chars) : Prop :=
  s = [] ∨ s.head? = some '?' ∨ s.head? = some '#'

instance (h : Chars) : Decidable (HostOk h) := by
  unfold HostOk
  infer_instance

instance (p : Chars) : Decidable (PathOk p) := by
  unfold PathOk
  infer_instance

instance (s : Chars) : Decidable (SuffixOk s) := by
  unfold SuffixOk
  infer_instance

/-! ### Character class facts -/

theorem isHostChar_not_stop {c : Char} (h : isHostChar c = true) :
    isStopChar c = false := by
  simp [isHostChar] at h
  simp [isStopChar]
  omega

theorem isPathChar_not_pathStop {c : Char} (h : isPathChar c = true) :
    isPathStop c = false := by
  simp [isPathChar] at h
  simp [isPathStop]
  omega

theorem isHostChar_lcChar {c : Char} (h : isHostChar c = true) :
    isHostChar (lcChar c) = true := by
  by_cases hu : 65 ≤ c.toNat ∧ c.toNat ≤ 90
  · have h32 := toNat_lcChar_of_upper hu
    simp [isHostChar]
    omega
  · rwa [lcChar_of_not_upper hu]

theorem isPathChar_lcChar {c : Char} (h : isPathChar c = true) :
    isPathChar (lcChar c) = true := by
  by_cases hu : 65 ≤ c.toNat ∧ c.toNat ≤ 90
  · have h32 := toNat_lcChar_of_upper hu
    simp [isPathChar]
    omega
  · rwa [lcChar_of_not_upper hu]

/-! ### List helper lemmas -/

theorem takeWhile_append_all {α : Type} {p : α → Bool} {a b : List α}
    (h : ∀ c ∈ a, p c = true) :
    (a ++ b).takeWhile p = a ++ b.takeWhile p := by
  induction a with
  | nil => simp
  | cons x xs ih => simp_all [List.takeWhile_cons]

theorem dropWhile_append_all {α : Type} {p : α → Bool} {a b : List α}
    (h : ∀ c ∈ a, p c = true) :
    (a ++ b).dropWhile p = b.dropWhile p := by
  induction a with
  | nil => simp
  | cons x xs ih => simp_all [List.dropWhile_cons]

/-- A pattern free of `/` that is not a prefix of `x` is not a prefix of
`x ++ y` either, when `y` opens with `/`. -/
theorem isPrefixOf_append_slash {pat x y : Chars}
    (h1 : pat.isPrefixOf x = false) (h2 : ∀ c ∈ pat, c ≠ '/')
    (hy : y.head? = some '/') :
    pat.isPrefixOf (x ++ y) = false := by
  induction x generalizing pat with
  | nil =>
    cases pat with
    | nil => simp [List.isPrefixOf] at h1
    | cons q qs =>
      cases y with
      | nil => simp at hy
      | cons y0 ys =>
        simp at hy
        subst hy
        have hq : q ≠ '/' := h2 q (by simp)
        simp [List.isPrefixOf, hq]
  | cons a xs ih =>
    cases pat with
    | nil => simp [List.isPrefixOf] at h1
    | cons q qs =>
      by_cases hqa : q = a
      · subst hqa
        simp [List.isPrefixOf] at h1 ⊢
        exact ih h1 (fun c hc => h2 c (by simp [hc]))
      · simp [List.isPrefixOf, hqa]

theorem getLast?_map' {α β : Type} (f : α → β) (l : List α) :
    (l.map f).getLast? = l.getLast?.map f := by
  induction l with
  | nil => rfl
  | cons x xs ih =>
    cases xs with
    | nil => rfl
    | cons y ys => simpa using ih

/-! ### Parsing a rendered URL -/

theorem schemeSplit_https (r : Chars) :
    schemeSplit ("https://".data ++ r) = some (true, r) := rfl

theorem schemeSplit_http (r : Chars) :
    schemeSplit ("http://".data ++ r) = some (false, r) := rfl

theorem takeWhile_nil_of_head {α : Type} {p : α → Bool} {l : List α}
    (h : ∀ c, l.head? = some c → p c = false) : l.takeWhile p = [] := by
  cases l with
  | nil => rfl
  | cons x xs => simp [List.takeWhile_cons, h x rfl]

theorem dropWhile_self_of_head {α : Type} {p : α → Bool} {l : List α}
    (h : ∀ c, l.head? = some c → p c = false) : l.dropWhile p = l := by
  cases l with
  | nil => rfl
  | cons x xs => simp [List.dropWhile_cons, h x rfl]

/-- Computation of the modeled URL constructor on a rendered well-formed
URL: the host and the path (with its optional trailing slash) are recovered
exactly, the query/fragment suffix is dropped, and an empty path becomes
`/`. -/
theorem parseHttpUrl_render (u : UrlForm) (hh : HostOk u.host) (hp : PathOk u.path)
    (hs : SuffixOk u.suffix) :
    parseHttpUrl (renderUrl u) =
      some ((if u.secure then "https://".data else "http://".data)
        ++ lowerL ((if u.www then "www.".data else []) ++ u.host)
        ++ (if u.path ++ (if u.slash then ['/'] else []) = [] then ['/']
            else u.path ++ (if u.slash then ['/'] else []))) := by
  obtain ⟨hne, hhc, _⟩ := hh
  obtain ⟨sec, www, host, path, slash, suffix⟩ := u
  simp only at hne hhc hp hs ⊢
  -- the pieces to the right of the scheme
  set wh : Chars := (if www then "www.".data else []) ++ host with hwhdef
  set tail : Chars := path ++ (if slash then ['/'] else []) ++ suffix with htaildef
  -- every character of the www label and the host is a host character
  have hwhhost : ∀ c ∈ wh, isHostChar c = true := by
    intro c hc
    rcases List.mem_append.1 hc with h | h
    · have hw : ∀ c ∈ "www.".data, isHostChar c = true := by decide
      cases www
      · simp at h
      · exact hw c (by simpa using h)
    · exact hhc c h
  have hwhstop : ∀ c ∈ wh, (!isStopChar c) = true := by
    intro c hc
    simp [isHostChar_not_stop (hwhhost c hc)]
  -- the tail begins with a stop character (or is empty)
  have htailhead : ∀ c, tail.head? = some c → (!isStopChar c) = false := by
    intro c hc
    rw [htaildef] at hc
    rcases hp with hpe | ⟨hph, _, _⟩
    · subst hpe
      simp at hc
      by_cases hsl : slash
      · simp [hsl] at hc
        simp [← hc, isStopChar]
      · simp [hsl] at hc
        rcases hs with hse | hse | hse
        · simp [hse] at hc
        · cases suffix with
          | nil => simp at hc
          | cons s0 ss =>
            simp at hse hc
            simp [← hc, hse, isStopChar]
        · cases suffix with
          | nil => simp at hc
          | cons s0 ss =>
            simp at hse hc
            simp [← hc, hse, isStopChar]
    · cases path with
      | nil => simp at hph
      | cons p0 ps =>
        simp at hph hc
        simp [← hc, hph, isStopChar]
  -- the rendered string, reassociated around the host
  have hassoc : renderUrl ⟨sec, www, host, path, slash, suffix⟩
      = (if sec then "https://".data else "http://".data) ++ (wh ++ tail) := by
    simp [renderUrl, hwhdef, htaildef, List.append_assoc]
  rw [hassoc]
  have hscheme : schemeSplit ((if sec then "https://".data else "http://".data) ++ (wh ++ tail))
      = some (sec, wh ++ tail) := by
    cases sec
    · exact schemeSplit_http _
    · exact schemeSplit_https _
  rw [parseHttpUrl, hscheme]
  simp only
  rw [takeWhile_append_all hwhstop, takeWhile_nil_of_head htailhead,
    dropWhile_append_all hwhstop, dropWhile_self_of_head htailhead,
    List.append_nil]
  have hwhne : ¬(wh = [] ∨ ¬ wh.all isHostChar) := by
    push_neg
    constructor
    · rw [hwhdef]
      cases www <;> simp [hne]
    · simpa [List.all_eq_true] using hwhhost
  rw [if_neg hwhne]
  -- the path stage
  have hpathchars : ∀ c ∈ path ++ (if slash then ['/'] else []), isPathChar c = true := by
    intro c hc
    rcases List.mem_append.1 hc with h | h
    · rcases hp with hpe | ⟨_, hpc, _⟩
      · simp [hpe] at h
      · exact hpc c h
    · cases slash
      · simp at h
      · simp at h
        simp [h, isPathChar]
  have hpathns : ∀ c ∈ path ++ (if slash then ['/'] else []), (!isPathStop c) = true := by
    intro c hc
    simp [isPathChar_not_pathStop (hpathchars c hc)]
  have hsuffnil : suffix.takeWhile (fun c => !isPathStop c) = [] := by
    apply takeWhile_nil_of_head
    intro c hc
    rcases hs with hse | hse | hse
    · simp [hse] at hc
    · cases suffix with
      | nil => simp at hc
      | cons s0 ss =>
        simp at hse hc
        simp [← hc, hse, isPathStop]
    · cases suffix with
      | nil => simp at hc
      | cons s0 ss =>
        simp at hse hc
        simp [← hc, hse, isPathStop]
  rw [htaildef, List.append_assoc]
  have h1 : ∀ c ∈ path, (!isPathStop c) = true :=
    fun c hc => hpathns c (List.mem_append.2 (Or.inl hc))
  have h2 : ∀ c ∈ (if slash then ['/'] else []), (!isPathStop c) = true :=
    fun c hc => hpathns c (List.mem_append.2 (Or.inr hc))
  rw [takeWhile_append_all h1, takeWhile_append_all h2, hsuffnil, List.append_nil]
  have hpall : ¬¬(path ++ (if slash then ['/'] else [])).all isPathChar = true := by
    rw [not_not, List.all_eq_true]
    exact hpathchars
  simp only [← List.append_assoc] at hpall ⊢
  rw [if_neg hpall]

theorem lowerL_append (a b : Chars) : lowerL (a ++ b) = lowerL a ++ lowerL b :=
  List.map_append _ _ _

theorem lcChar_slash : lcChar '/' = '/' := by decide

theorem isPrefixOf_append_same {a b c : Chars} :
    (a ++ b).isPrefixOf (a ++ c) = b.isPrefixOf c := by
  induction a with
  | nil => rfl
  | cons x xs ih => simp [List.isPrefixOf, ih]

/-- Canonical form computed by the embedded `normalizeUrl` on any rendering
of a well-formed URL: scheme forced to `https`, `www.` and the trailing
slash stripped, query/fragment dropped, everything lower-cased. -/
theorem normalizeUrlL_render (u : UrlForm) (hh : HostOk u.host) (hp : PathOk u.path)
    (hs : SuffixOk u.suffix) :
    normalizeUrlL (renderUrl u) = "https://".data ++ lowerL u.host ++ lowerL u.path := by
  have hparse := parseHttpUrl_render u hh hp hs
  obtain ⟨sec, www, host, path, slash, suffix⟩ := u
  obtain ⟨hne, hhc, hnw⟩ := hh
  simp only at hne hhc hnw hp hs hparse ⊢
  rw [normalizeUrlL, hparse]
  simp only
  set pn : Chars := if path ++ (if slash then ['/'] else []) = [] then ['/']
      else path ++ (if slash then ['/'] else []) with hpndef
  set wh : Chars := (if www then "www.".data else []) ++ host with hwhdef
  -- lower-casing the parsed origin + pathname
  have e1 : lowerL ((if sec then "https://".data else "http://".data) ++ lowerL wh ++ pn)
      = (if sec then "https://".data else "http://".data) ++ (lowerL wh ++ lowerL pn) := by
    rw [lowerL_append, lowerL_append, lowerL_idem, List.append_assoc]
    have hsch : lowerL (if sec then "https://".data else "http://".data)
        = (if sec then "https://".data else "http://".data) := by
      cases sec <;> decide
    rw [hsch]
  rw [e1]
  -- collapsing the scheme to https
  have e2 : stripSchemeHttp ((if sec then "https://".data else "http://".data)
        ++ (lowerL wh ++ lowerL pn))
      = "https://".data ++ (lowerL wh ++ lowerL pn) := by
    cases sec
    · simp only [if_neg Bool.false_ne_true]
      rw [stripSchemeHttp, if_pos (by simp [List.isPrefixOf])]
      have h7 : ("http://".data).length = 7 := rfl
      rw [← h7, List.drop_left]
    · simp only [if_pos (rfl : true = true)]
      rw [stripSchemeHttp, if_neg (by simp [List.isPrefixOf])]
      simp
  rw [e2]
  -- the pathname always opens with a slash
  have hpnhead : (lowerL pn).head? = some '/' := by
    rw [lowerL, List.head?_map, hpndef]
    rcases hp with hpe | ⟨hph, _, _⟩
    · subst hpe
      cases slash <;> simp [lcChar_slash]
    · cases path with
      | nil => simp at hph
      | cons p0 ps =>
        simp at hph
        simp [hph, lcChar_slash]
  -- stripping the www label
  have e3 : stripWww ("https://".data ++ (lowerL wh ++ lowerL pn))
      = "https://".data ++ (lowerL host ++ lowerL pn) := by
    cases www
    · rw [stripWww, if_neg]
      · simp [hwhdef]
      · have hsplit : ("https://www.".data) = "https://".data ++ "www.".data := rfl
        rw [hsplit, isPrefixOf_append_same, hwhdef]
        simp only [if_neg Bool.false_ne_true, List.nil_append]
        rw [isPrefixOf_append_slash hnw (by decide) hpnhead]
        simp
    · have hwww : lowerL wh = "www.".data ++ lowerL host := by
        rw [hwhdef]
        simp only [if_pos rfl]
        rw [lowerL_append]
        rfl
      rw [hwww, stripWww]
      have hjoin : "https://".data ++ ("www.".data ++ lowerL host ++ lowerL pn)
          = "https://www.".data ++ (lowerL host ++ lowerL pn) := by
        simp [List.append_assoc]
      rw [hjoin, if_pos (by simp [List.isPrefixOf])]
      have h12 : ("https://www.".data).length = 12 := rfl
      rw [← h12, List.drop_left]
  rw [e3]
  -- stripping the single trailing slash
  rcases hp with hpe | ⟨hph, hpc, hpl⟩
  · subst hpe
    have hpn : pn = ['/'] := by
      rw [hpndef]
      cases slash <;> simp
    rw [hpn, stripTrailSlash, if_pos]
    · rw [show (lowerL ['/'] : Chars) = ['/'] from rfl,
        show "https://".data ++ (lowerL host ++ ['/'])
          = ("https://".data ++ lowerL host) ++ ['/'] by simp [List.append_assoc],
        List.dropLast_concat]
      simp [lowerL]
    · rw [show (lowerL ['/'] : Chars) = ['/'] from rfl, List.getLast?_append,
        List.getLast?_append]
      rfl
  · cases path with
    | nil => simp at hph
    | cons p0 ps =>
      cases slash
      · have hpn : pn = p0 :: ps := by rw [hpndef]; simp
        rw [hpn, stripTrailSlash, if_neg]
        · simp [List.append_assoc]
        · rw [List.getLast?_append, List.getLast?_append]
          obtain ⟨c, hc⟩ : ∃ c, (p0 :: ps).getLast? = some c := by
            cases ps with
            | nil => exact ⟨p0, rfl⟩
            | cons q qs => exact ⟨_, List.getLast?_cons_cons⟩
          rw [show (lowerL (p0 :: ps)).getLast? = ((p0 :: ps).getLast?).map lcChar from
            getLast?_map' _ _, hc]
          have hcne : c ≠ '/' := fun h => hpl (by rw [hc, h])
          have hlc : lcChar c ≠ '/' := fun h => hcne ((lcChar_eq_low (by decide)).1 h)
          simp [Option.or, hlc]
      · have hpn : pn = (p0 :: ps) ++ ['/'] := by rw [hpndef]; simp
        rw [hpn, stripTrailSlash, if_pos]
        · rw [lowerL_append,
            show (lowerL ['/'] : Chars) = ['/'] from rfl,
            show "https://".data ++ (lowerL host ++ (lowerL (p0 :: ps) ++ ['/']))
              = ("https://".data ++ lowerL host ++ lowerL (p0 :: ps)) ++ ['/'] by
                simp [List.append_assoc],
            List.dropLast_concat]
        · rw [lowerL_append, show (lowerL ['/'] : Chars) = ['/'] from rfl,
            List.getLast?_append, List.getLast?_append, List.getLast?_concat]
          rfl

/-- C5: two renderings of the same resource — same host and path, any
combination of scheme (`http` vs `https`), leading `www.`, single trailing
slash, and query/fragment suffix — normalize to the same string. -/
theorem normalizeUrl_same_resource
    (host path : Chars) (hh : HostOk host) (hp : PathOk path)
    (s1 w1 sl1 : Bool) (suf1 : Chars) (h1 : SuffixOk suf1)
    (s2 w2 sl2 : Bool) (suf2 : Chars) (h2 : SuffixOk suf2) :
    normalizeUrl ⟨renderUrl ⟨s1, w1, host, path, sl1, suf1⟩⟩
      = normalizeUrl ⟨renderUrl ⟨s2, w2, host, path, sl2, suf2⟩⟩ := by
  have e1 := normalizeUrlL_render ⟨s1, w1, host, path, sl1, suf1⟩ hh hp h1
  have e2 := normalizeUrlL_render ⟨s2, w2, host, path, sl2, suf2⟩ hh hp h2
  simp only at e1 e2
  show (⟨normalizeUrlL (renderUrl ⟨s1, w1, host, path, sl1, suf1⟩)⟩ : String)
    = ⟨normalizeUrlL (renderUrl ⟨s2, w2, host, path, sl2, suf2⟩)⟩
  rw [e1, e2]

/-- Witness for C5 at a concrete resource:
`http://www.Example.com/Guide/?q=1` and `https://Example.com/Guide#top`. -/
theorem normalizeUrl_same_resource_witness :
    HostOk "Example.com".data ∧ PathOk "/Guide".data ∧
    SuffixOk "?q=1".data ∧ SuffixOk "#top".data ∧
    normalizeUrl ⟨renderUrl ⟨false, true, "Example.com".data, "/Guide".data, true, "?q=1".data⟩⟩
      = normalizeUrl ⟨renderUrl ⟨true, false, "Example.com".data, "/Guide".data, false, "#top".data⟩⟩ :=
  ⟨by decide, by decide, by decide, by decide,
    normalizeUrl_same_resource "Example.com".data "/Guide".data
      (by decide) (by decide)
      false true true "?q=1".data (by decide)
      true false false "#top".data (by decide)⟩

/-- C10 counterexample: `normalizeUrl` is not idempotent on arbitrary
strings — each application strips at most one trailing slash, so the
unparseable input `"a//"` normalizes to `"a/"` and then to `"a"`. -/
theorem normalizeUrl_not_idempotent :
    normalizeUrl (normalizeUrl "a//") ≠ normalizeUrl "a//" := by decide

/-- C10 (amended): `normalizeUrl` is a total string transform, and it is
idempotent on every rendering of a well-formed http(s) URL; on arbitrary
strings idempotence can fail (see the counterexample). -/
theorem normalizeUrl_idempotent_on_wellformed (u : UrlForm) (hh : HostOk u.host)
    (hp : PathOk u.path) (hs : SuffixOk u.suffix) :
    normalizeUrl (normalizeUrl ⟨renderUrl u⟩) = normalizeUrl ⟨renderUrl u⟩ := by
  have e1 := normalizeUrlL_render u hh hp hs
  have hh2 : HostOk (lowerL u.host) := by
    refine ⟨by simpa [lowerL] using hh.1, ?_, ?_⟩
    · intro c hc
      obtain ⟨d, hd, rfl⟩ := List.mem_map.1 hc
      exact isHostChar_lcChar (hh.2.1 d hd)
    · rw [lowerL_idem]
      exact hh.2.2
  have hp2 : PathOk (lowerL u.path) := by
    rcases hp with hpe | ⟨hph, hpc, hpl⟩
    · left
      simp [hpe, lowerL]
    · right
      refine ⟨?_, ?_, ?_⟩
      · rw [lowerL, List.head?_map, hph]
        simp [lcChar_slash]
      · intro c hc
        obtain ⟨d, hd, rfl⟩ := List.mem_map.1 hc
        exact isPathChar_lcChar (hpc d hd)
      · rw [lowerL, getLast?_map']
        intro h
        rcases hx : u.path.getLast? with _ | c
        · rw [hx] at h
          simp at h
        · rw [hx] at h
          simp at h
          exact hpl (by rw [hx, (lcChar_eq_low (by decide)).1 h])
  have hcanon : "https://".data ++ lowerL u.host ++ lowerL u.path
      = renderUrl ⟨true, false, lowerL u.host, lowerL u.path, false, []⟩ := by
    simp [renderUrl, List.append_assoc]
  have e2 := normalizeUrlL_render ⟨true, false, lowerL u.host, lowerL u.path, false, []⟩
    hh2 hp2 (Or.inl rfl)
  simp only at e2
  rw [lowerL_idem, lowerL_idem] at e2
  show (⟨normalizeUrlL (normalizeUrlL (renderUrl u))⟩ : String)
    = (⟨normalizeUrlL (renderUrl u)⟩ : String)
  rw [e1, hcanon, e2, ← hcanon]

/-- Witness for the amended C10 at the concrete rendering
`http://www.Example.com/Guide/?q=1`. -/
theorem normalizeUrl_idempotent_on_wellformed_witness :
    HostOk "Example.com".data ∧ PathOk "/Guide".data ∧ SuffixOk "?q=1".data ∧
    normalizeUrl (normalizeUrl
        ⟨renderUrl ⟨false, true, "Example.com".data, "/Guide".data, true, "?q=1".data⟩⟩)
      = normalizeUrl ⟨renderUrl ⟨false, true, "Example.com".data, "/Guide".data, true, "?q=1".data⟩⟩ :=
  ⟨by decide, by decide, by decide,
    normalizeUrl_idempotent_on_wellformed
      ⟨false, true, "Example.com".data, "/Guide".data, true, "?q=1".data⟩
      (by decide) (by decide) (by decide)⟩

/-! ## Sentence store (src/lib/analyze.js lines 112-134, scripts/buildSentences.js) -/

/-- Models JavaScript `String.prototype.trim` (ASCII whitespace). -/
def trimL (s : Chars) : Chars :=
  ((s.dropWhile Char.isWhitespace).reverse.dropWhile Char.isWhitespace).reverse

/-- Models `text.split(/(?<=[.!?])\s+/)`: the text is cut at every maximal
whitespace run whose preceding character is `.`, `!` or `?`.  The second
argument is the current chunk reversed; the third records whether we are
inside a separator run (the chunk is then empty). -/
def splitPunctAux : Chars → Chars → Bool → List Chars
  | [], acc, _ => [acc.reverse]
  | c :: rest, acc, skipping =>
    if skipping then
      if c.isWhitespace then splitPunctAux rest acc true
      else splitPunctAux rest [c] false
    else if c.isWhitespace ∧
        (acc.head? = some '.' ∨ acc.head? = some '!' ∨ acc.head? = some '?') then
      acc.reverse :: splitPunctAux rest [] true
    else splitPunctAux rest (c :: acc) false

/-- Sentence-splitting separator pass used by both indexers. -/
def splitPunct (s : Chars) : List Chars := splitPunctAux s [] false

/-- Models JavaScript `split(' ')` (cut at every single space, keeping
empty tokens); the accumulator holds the current token reversed. -/
def splitSpaceAux : Chars → Chars → List String
  | [], acc => [⟨acc.reverse⟩]
  | c :: rest, acc =>
    if c = ' ' then (⟨acc.reverse⟩ : String) :: splitSpaceAux rest []
    else splitSpaceAux rest (c :: acc)

/-- Models `s.split(' ')`. -/
def jsSplitSpace (s : String) : List String := splitSpaceAux s.data []

/-- Models `splitSentences` from src/lib/analyze.js lines 112-117: split on
sentence-ending punctuation followed by whitespace, trim, and keep parts
longer than 40 characters with at least 7 space-separated tokens
(JavaScript `split(' ')` cuts at single spaces, counting empty tokens). -/
def splitSentences (text : String) : List String :=
  ((splitPunct text.data).map (fun part => (⟨trimL part⟩ : String))).filter
    (fun s => 40 < s.length ∧ 7 ≤ (jsSplitSpace s).length)

/-- Row of the `sentences` table (supabase schema). -/
structure SentenceRow where
  page_url : String
  page_title : String
  sentence : String
  existing_links : List String
deriving DecidableEq

/-- Models `populateSentences` from src/lib/analyze.js lines 123-134: on
empty content or no usable sentences do nothing; otherwise delete every
existing row of the page and insert the freshly split sentences.  Inserted
rows leave `existing_links` at its database default `{}`. -/
def populateSentences (pageUrl pageTitle content : String)
    (store : List SentenceRow) : List SentenceRow :=
  if content = "" then store
  else
    let sentences := splitSentences content
    if sentences = [] then store
    else
      (store.filter (fun r => r.page_url ≠ pageUrl))
        ++ sentences.map (fun s => ⟨pageUrl, pageTitle, s, []⟩)

/-- C7: reindexing a page is idempotent — two identical `populateSentences`
calls leave the sentence store exactly as one call does. -/
theorem populateSentences_idempotent (pageUrl pageTitle content : String)
    (store : List SentenceRow) :
    populateSentences pageUrl pageTitle content
        (populateSentences pageUrl pageTitle content store)
      = populateSentences pageUrl pageTitle content store := by
  unfold populateSentences
  by_cases hc : content = ""
  · simp [hc]
  · simp only [if_neg hc]
    by_cases hs : splitSentences content = []
    · simp [hs]
    · simp only [if_neg hs]
      rw [List.filter_append]
      have h1 : ((splitSentences content).map
            (fun s => (⟨pageUrl, pageTitle, s, []⟩ : SentenceRow))).filter
            (fun r => r.page_url ≠ pageUrl) = [] := by
        rw [List.filter_eq_nil_iff]
        intro r hr
        obtain ⟨s, _, rfl⟩ := List.mem_map.1 hr
        simp
      rw [h1, List.append_nil, List.filter_filter]
      congr 1
      apply List.filter_congr
      intro r _
      simp

/-- Substring containment on character lists, modeling JavaScript
`String.prototype.includes`. -/
def hasInfix (hay pat : Chars) : Bool :=
  match hay with
  | [] => pat.isEmpty
  | _ :: t => pat.isPrefixOf hay || hasInfix t pat

/-- Models `sentence.trim().split(/\s+/)` from `isUsableSentence`
(scripts/buildSentences.js line 106): JavaScript splits a trimmed string on
whitespace runs; the empty string yields `[""]`. -/
def jsWordsAux : Chars → Chars → List String
  | [], acc => if acc = [] then [] else [⟨acc.reverse⟩]
  | c :: rest, acc =>
    if c.isWhitespace then
      if acc = [] then jsWordsAux rest []
      else (⟨acc.reverse⟩ : String) :: jsWordsAux rest []
    else jsWordsAux rest (c :: acc)

def jsWords (s : String) : List String :=
  let t : Chars := trimL s.data
  if t = [] then [""]
  else jsWordsAux t []

/-- Models the `/^[A-Z]/` test of scripts/buildSentences.js line 116. -/
def startsUpper (w : String) : Bool :=
  match w.data with
  | [] => false
  | c :: _ => 65 ≤ c.toNat ∧ c.toNat ≤ 90

/-- The `SITE_NAME_FRAGMENTS` constant of scripts/buildSentences.js. -/
def siteNameFragments : List Chars := ["lipedema and me".data, "lipedemaandme".data]

/-- Models `isUsableSentence` from scripts/buildSentences.js lines 105-119,
mirroring its chain of early-false returns.  The JavaScript capitalization
test compares `capitalizedWords / words.length > 0.4` in binary floating
point; for the word counts reachable here that coincides with the rational
comparison `5 * capitalized > 2 * total` used below. -/
def isUsableSentence (sentence : String) : Bool :=
  let words := jsWords sentence
  if words.length < 15 then false
  else if hasInfix sentence.data ['|'] then false
  else if hasInfix (lowerL sentence.data) ("skip to content".data) then false
  else if siteNameFragments.any (fun f => hasInfix (lowerL sentence.data) f) then false
  else if 5 * (words.filter startsUpper).length > 2 * words.length then false
  else true

/-- A text block extracted from `<p>`/`<h2>`/`<h3>` markup together with the
normalized hrefs found inside it; the HTML parsing itself is done by the
external Content Extractor (cheerio) and is the input here. -/
structure Block where
  text : String
  links : List String

/-- A row produced by the buildSentences indexer. -/
structure BuiltRow where
  sentence : String
  existing_links : List String
deriving DecidableEq

/-- Models `extractSentences` from scripts/buildSentences.js lines 124-139
starting from the extracted blocks: split each block on sentence-ending
punctuation, trim, and keep exactly the parts accepted by
`isUsableSentence`, carrying the block's links. -/
def extractSentences (blocks : List Block) : List BuiltRow :=
  blocks.flatMap (fun b =>
    (((splitPunct b.text.data).map (fun part => (⟨trimL part⟩ : String))).filter
      (fun s => isUsableSentence s)).map (fun s => ⟨s, b.links⟩))

/-- Unfolding of a successful `isUsableSentence` test into the documented
quality filters. -/
theorem isUsableSentence_spec {s : String} (h : isUsableSentence s = true) :
    15 ≤ (jsWords s).length
      ∧ 5 * ((jsWords s).filter startsUpper).length ≤ 2 * (jsWords s).length
      ∧ hasInfix s.data ['|'] = false
      ∧ hasInfix (lowerL s.data) ("skip to content".data) = false
      ∧ hasInfix (lowerL s.data) ("lipedema and me".data) = false
      ∧ hasInfix (lowerL s.data) ("lipedemaandme".data) = false := by
  unfold isUsableSentence at h
  simp only at h
  split_ifs at h with h1 h2 h3 h4 h5
  have hsite : ∀ f ∈ siteNameFragments, hasInfix (lowerL s.data) f = false := by
    intro f hf
    by_contra hcon
    exact h4 (List.any_eq_true.2 ⟨f, hf, by simpa using hcon⟩)
  refine ⟨by omega, by omega, by simpa using h2, by simpa using h3, ?_, ?_⟩
  · exact hsite _ (by simp [siteNameFragments])
  · exact hsite _ (by simp [siteNameFragments])

/-- C8 (amended): every fragment stored by the buildSentences indexer
passes all documented quality filters (at least 15 words, at most 40%
capitalized words, no pipe, no "skip to content", no site-name fragment),
while a fragment stored through `populateSentences` is only guaranteed the
weaker filter of src/lib/analyze.js: more than 40 characters and at least 7
space-separated tokens. -/
theorem storedFragment_filters (blocks : List Block) (content : String) :
    (∀ r ∈ extractSentences blocks,
      15 ≤ (jsWords r.sentence).length
        ∧ 5 * ((jsWords r.sentence).filter startsUpper).length
            ≤ 2 * (jsWords r.sentence).length
        ∧ hasInfix r.sentence.data ['|'] = false
        ∧ hasInfix (lowerL r.sentence.data) ("skip to content".data) = false
        ∧ hasInfix (lowerL r.sentence.data) ("lipedema and me".data) = false
        ∧ hasInfix (lowerL r.sentence.data) ("lipedemaandme".data) = false)
    ∧ (∀ s ∈ splitSentences content, 40 < s.length ∧ 7 ≤ (jsSplitSpace s).length) := by
  constructor
  · intro r hr
    obtain ⟨b, _, hb⟩ := List.mem_flatMap.1 hr
    obtain ⟨s, hs, rfl⟩ := List.mem_map.1 hb
    exact isUsableSentence_spec (List.of_mem_filter hs)
  · intro s hs
    have := List.of_mem_filter hs
    simpa using this

/-- C8 counterexample: `populateSentences` stores a pipe-separated
navigation line of only 12 space-separated tokens as a fragment, so not
every indexed fragment passes the documented quality filters. -/
theorem storedFragment_fails_filters :
    (populateSentences "https://x.com/a" "T"
        "Home | About | Contact | Services | Blog | Shop today." []).map
        (fun r => r.sentence)
      = ["Home | About | Contact | Services | Blog | Shop today."]
    ∧ hasInfix ("Home | About | Contact | Services | Blog | Shop today.".data) ['|'] = true
    ∧ isUsableSentence "Home | About | Contact | Services | Blog | Shop today." = false := by
  refine ⟨by decide, by decide, by decide⟩

/-- Sample sentence used by the C8 witness. -/
def goodSentence : String :=
  "the quick brown fox jumps over the lazy dog while the calm river flows south tonight"

/-- Sample page content used by the C8 witness. -/
def goodContent : String :=
  "many patients ask about weight loss with lipedema management options today."

/-- Witness for the amended C8 at one concrete block and one concrete
content string. -/
theorem storedFragment_filters_witness :
    (15 ≤ (jsWords goodSentence).length
      ∧ 5 * ((jsWords goodSentence).filter startsUpper).length
          ≤ 2 * (jsWords goodSentence).length
      ∧ hasInfix goodSentence.data ['|'] = false
      ∧ hasInfix (lowerL goodSentence.data) ("skip to content".data) = false
      ∧ hasInfix (lowerL goodSentence.data) ("lipedema and me".data) = false
      ∧ hasInfix (lowerL goodSentence.data) ("lipedemaandme".data) = false)
    ∧ (40 < goodContent.length ∧ 7 ≤ (jsSplitSpace goodContent).length) :=
  ⟨(storedFragment_filters [⟨goodSentence, []⟩] goodContent).1
      ⟨goodSentence, []⟩ (by decide),
    (storedFragment_filters [⟨goodSentence, []⟩] goodContent).2
      goodContent (by decide)⟩

/-! ## Candidate retrieval (analyzeUrl, src/lib/analyze.js lines 150-196 and
the unnamed sibling variant src/unnamed/part_000 lines 150-226) -/

/-- Case-insensitive substring match, modeling one `sentence.ilike.%kw%`
filter for a keyword without wildcard characters. -/
def ilikeMatch (sentence kw : String) : Bool :=
  hasInfix (lowerL sentence.data) (lowerL kw.data)

/-- The `SKIP_PATTERNS` denylist of src/lib/analyze.js lines 32-48. -/
def SKIP_PATTERNS : List String :=
  ["/sitemap", "/category/", "/author/", "/tag/", "/blog/", "/page/",
   "/contributors/", "/privacy-policy", "/terms-and-conditions",
   "/newsletter-sign-up", "/lipedema-quiz", "/homeold",
   "/advertise-with-us", "/lipedema-photos", "/lipedema-before-and-after"]

/-- Models `isContentPage` (src/lib/analyze.js line 49). -/
def isContentPage (url : String) : Bool :=
  !(SKIP_PATTERNS.any (fun p => hasInfix url.data p.data))

/-- Models the Supabase sentence query of `analyzeUrl`: rows whose sentence
matches any keyword case-insensitively (`.or` of ilike filters), excluding
the target page (`.neq('page_url', url)`), capped at the limit, in table
order. -/
def queryMatching (table : List SentenceRow) (url : String)
    (keywords : List String) (limit : Nat) : List SentenceRow :=
  (table.filter
    (fun r => keywords.any (fun kw => ilikeMatch r.sentence kw) ∧ r.page_url ≠ url)).take limit

/-- Transient candidate handed to the Suggestion Confirmer. -/
structure Candidate where
  sourceUrl : String
  sourceTitle : String
  sentence : String
deriving DecidableEq

/-- Models the candidate loop of the current `analyzeUrl`
(src/lib/analyze.js lines 171-183): drop non-content pages and deduplicate
by sentence text, keeping the first occurrence; `page_title || page_url`
falls back to the url on an empty title. -/
def buildCandidates : List SentenceRow → List String → List Candidate
  | [], _ => []
  | r :: rs, seen =>
    if isContentPage r.page_url = false then buildCandidates rs seen
    else if r.sentence ∈ seen then buildCandidates rs seen
    else
      ⟨r.page_url, if r.page_title = "" then r.page_url else r.page_title, r.sentence⟩
        :: buildCandidates rs (r.sentence :: seen)

/-- The candidate list handed to the Suggestion Confirmer by the current
`analyzeUrl` (src/lib/analyze.js lines 156-193): query capped at 40 rows,
the dedup loop, then `candidates.slice(0, 15)`. -/
def analyzeCandidates (table : List SentenceRow) (url : String)
    (keywords : List String) : List Candidate :=
  (buildCandidates (queryMatching table url keywords 40) []).take 15

/-- In-memory suggestion produced by analysis. -/
structure Suggestion where
  sourceUrl : String
  sourceTitle : String
  suggestedAnchorText : String
  anchorSource : Option String
  context : String
  reason : String
deriving DecidableEq

/-- Stable insertion of `x` into `l`: `x` is placed before the first
element not strictly ahead of it, so equal keys keep their original
relative order. -/
def insertStable {α : Type} (lt : α → α → Bool) (x : α) : List α → List α
  | [] => [x]
  | y :: ys => if lt y x then y :: insertStable lt x ys else x :: y :: ys

/-- Stable sort by the strict comparator `lt` (`lt a b` = `a` strictly
before `b`). -/
def sortStable {α : Type} (lt : α → α → Bool) : List α → List α
  | [] => []
  | x :: xs => insertStable lt x (sortStable lt xs)

theorem insertStable_perm {α : Type} (lt : α → α → Bool) (x : α) (l : List α) :
    (insertStable lt x l).Perm (x :: l) := by
  induction l with
  | nil => exact List.Perm.refl _
  | cons y ys ih =>
    by_cases h : lt y x = true
    · rw [insertStable, if_pos h]
      exact (ih.cons y).trans (List.Perm.swap x y ys)
    · rw [insertStable, if_neg h]

theorem sortStable_perm {α : Type} (lt : α → α → Bool) (l : List α) :
    (sortStable lt l).Perm l := by
  induction l with
  | nil => exact List.Perm.refl _
  | cons x xs ih =>
    exact (insertStable_perm lt x (sortStable lt xs)).trans (ih.cons x)

/-- Keyword list lower-cased, trimmed and sorted longest first
(src/unnamed/part_000 lines 191-193); the sort is stable, so equal lengths
keep their original order like the JavaScript `Array.prototype.sort`. -/
def sortedKeywords (keywords : List String) : List String :=
  sortStable (fun a b => b.length < a.length)
    (keywords.map (fun kw => (⟨trimL (lowerL kw.data)⟩ : String)))

/-- Anchor selection without an oracle (src/unnamed/part_000 lines
206-210): the first (longest) keyphrase occurring case-insensitively in the
sentence. -/
def findAnchor (kws : List String) (sentence : String) : Option String :=
  kws.find? (fun kw => hasInfix (lowerL sentence.data) kw.data)

/-- Models the suggestion loop of the part_000 `analyzeUrl` (lines
195-223): skip non-content pages, at most one suggestion per source page,
skip fragments whose recorded `existing_links` contain the normalized
target, skip fragments without a matching keyphrase, and stop once 30
suggestions are collected. -/
def buildSuggestionsP0 (kws : List String) (tgtNorm : String) :
    List SentenceRow → List String → Nat → List Suggestion
  | [], _, _ => []
  | r :: rs, seen, cnt =>
    if isContentPage r.page_url = false then buildSuggestionsP0 kws tgtNorm rs seen cnt
    else if r.page_url ∈ seen then buildSuggestionsP0 kws tgtNorm rs seen cnt
    else if tgtNorm ∈ r.existing_links then buildSuggestionsP0 kws tgtNorm rs seen cnt
    else
      match findAnchor kws r.sentence with
      | none => buildSuggestionsP0 kws tgtNorm rs seen cnt
      | some anchor =>
        let out : Suggestion :=
          ⟨r.page_url, if r.page_title = "" then r.page_url else r.page_title,
            anchor, some "keyword", r.sentence, "Keyword match in existing sentence."⟩
        if 30 ≤ cnt + 1 then [out]
        else out :: buildSuggestionsP0 kws tgtNorm rs (r.page_url :: seen) (cnt + 1)

/-- The suggestion list built by the part_000 `analyzeUrl` (no oracle):
query capped at 200 rows, then the suggestion loop. -/
def analyzeSuggestionsP0 (table : List SentenceRow) (url : String)
    (keywords : List String) : List Suggestion :=
  buildSuggestionsP0 (sortedKeywords keywords) (normalizeUrl url)
    (queryMatching table url keywords 200) [] 0

/-- Invariant of the candidate loop: output sentences are distinct, none
was already seen, and every candidate's source url comes from an input
row. -/
theorem buildCandidates_spec (rows : List SentenceRow) (seen : List String) :
    ((buildCandidates rows seen).map (fun c => c.sentence)).Nodup
    ∧ ∀ c ∈ buildCandidates rows seen,
        c.sentence ∉ seen ∧ ∃ r ∈ rows, c.sourceUrl = r.page_url := by
  induction rows generalizing seen with
  | nil => simp [buildCandidates]
  | cons r rs ih =>
    by_cases h1 : isContentPage r.page_url = false
    · rw [buildCandidates, if_pos h1]
      refine ⟨(ih seen).1, fun c hc => ?_⟩
      obtain ⟨hs, rr, hrr, he⟩ := (ih seen).2 c hc
      exact ⟨hs, rr, by simp [hrr], he⟩
    · by_cases h2 : r.sentence ∈ seen
      · rw [buildCandidates, if_neg h1, if_pos h2]
        refine ⟨(ih seen).1, fun c hc => ?_⟩
        obtain ⟨hs, rr, hrr, he⟩ := (ih seen).2 c hc
        exact ⟨hs, rr, by simp [hrr], he⟩
      · rw [buildCandidates, if_neg h1, if_neg h2]
        obtain ⟨ihnd, ihmem⟩ := ih (r.sentence :: seen)
        refine ⟨?_, ?_⟩
        · simp only [List.map_cons, List.nodup_cons]
          refine ⟨fun hmem => ?_, ihnd⟩
          obtain ⟨c, hc, hcs⟩ := List.mem_map.1 hmem
          exact (ihmem c hc).1 (by simp [hcs])
        · intro c hc
          rcases List.mem_cons.1 hc with rfl | hc'
          · exact ⟨h2, r, by simp⟩
          · obtain ⟨hs, rr, hrr, he⟩ := ihmem c hc'
            exact ⟨fun hmem => hs (by simp [hmem]), rr, by simp [hrr], he⟩

/-- Invariant of the part_000 suggestion loop: output source pages are
distinct, none was already seen, and each comes from an input row. -/
theorem buildSuggestionsP0_spec (kws : List String) (tgt : String)
    (rows : List SentenceRow) (seen : List String) (cnt : Nat) :
    ((buildSuggestionsP0 kws tgt rows seen cnt).map (fun s => s.sourceUrl)).Nodup
    ∧ ∀ s ∈ buildSuggestionsP0 kws tgt rows seen cnt,
        s.sourceUrl ∉ seen ∧ ∃ r ∈ rows, s.sourceUrl = r.page_url := by
  induction rows generalizing seen cnt with
  | nil => simp [buildSuggestionsP0]
  | cons r rs ih =>
    have hskip : ∀ res : List Suggestion,
        res = buildSuggestionsP0 kws tgt rs seen cnt →
        (res.map (fun s => s.sourceUrl)).Nodup
          ∧ ∀ s ∈ res, s.sourceUrl ∉ seen ∧ ∃ rr ∈ r :: rs, s.sourceUrl = rr.page_url := by
      intro res hres
      subst hres
      refine ⟨(ih seen cnt).1, fun s hs => ?_⟩
      obtain ⟨hns, rr, hrr, he⟩ := (ih seen cnt).2 s hs
      exact ⟨hns, rr, by simp [hrr], he⟩
    by_cases h1 : isContentPage r.page_url = false
    · rw [buildSuggestionsP0, if_pos h1]
      exact hskip _ rfl
    · by_cases h2 : r.page_url ∈ seen
      · rw [buildSuggestionsP0, if_neg h1, if_pos h2]
        exact hskip _ rfl
      · by_cases h3 : tgt ∈ r.existing_links
        · rw [buildSuggestionsP0, if_neg h1, if_neg h2, if_pos h3]
          exact hskip _ rfl
        · rcases hfa : findAnchor kws r.sentence with _ | anchor
          · rw [buildSuggestionsP0, if_neg h1, if_neg h2, if_neg h3, hfa]
            exact hskip _ rfl
          · rw [buildSuggestionsP0, if_neg h1, if_neg h2, if_neg h3, hfa]
            simp only
            by_cases h4 : 30 ≤ cnt + 1
            · rw [if_pos h4]
              exact ⟨by simp, fun s hs => by
                rcases List.mem_singleton.1 hs with rfl
                exact ⟨h2, r, by simp, rfl⟩⟩
            · rw [if_neg h4]
              obtain ⟨ihnd, ihmem⟩ := ih (r.page_url :: seen) (cnt + 1)
              refine ⟨?_, ?_⟩
              · simp only [List.map_cons, List.nodup_cons]
                refine ⟨fun hmem => ?_, ihnd⟩
                obtain ⟨s, hs, hss⟩ := List.mem_map.1 hmem
                exact (ihmem s hs).1 (by simp [hss])
              · intro s hs
                rcases List.mem_cons.1 hs with rfl | hs'
                · exact ⟨h2, r, by simp⟩
                · obtain ⟨hns, rr, hrr, he⟩ := ihmem s hs'
                  exact ⟨fun hmem => hns (by simp [hmem]), rr, by simp [hrr], he⟩

/-- Every row returned by the sentence query names a page other than the
target. -/
theorem queryMatching_ne_target (table : List SentenceRow) (url : String)
    (keywords : List String) (limit : Nat) :
    ∀ r ∈ queryMatching table url keywords limit, r.page_url ≠ url := by
  intro r hr
  have hmem := List.mem_of_mem_take hr
  have := List.of_mem_filter hmem
  simp at this
  exact this.2

/-- C2 (amended): the candidate list handed to the Suggestion Confirmer by
the current `analyzeUrl` contains at most one candidate per distinct
sentence text — not per source page — and never the target page itself; the
suggestion list built by the no-oracle part_000 variant contains at most
one suggestion per source page and never the target page. -/
theorem retrieval_dedup (table : List SentenceRow) (url : String)
    (keywords : List String) :
    ((analyzeCandidates table url keywords).map (fun c => c.sentence)).Nodup
    ∧ (∀ c ∈ analyzeCandidates table url keywords, c.sourceUrl ≠ url)
    ∧ ((analyzeSuggestionsP0 table url keywords).map (fun s => s.sourceUrl)).Nodup
    ∧ (∀ s ∈ analyzeSuggestionsP0 table url keywords, s.sourceUrl ≠ url) := by
  refine ⟨?_, ?_, ?_, ?_⟩
  · have h := (buildCandidates_spec (queryMatching table url keywords 40) []).1
    have hsub : ((analyzeCandidates table url keywords).map (fun c => c.sentence)).Sublist
        ((buildCandidates (queryMatching table url keywords 40) []).map (fun c => c.sentence)) :=
      (List.take_sublist _ _).map _
    exact hsub.nodup h
  · intro c hc
    have hc' := List.mem_of_mem_take hc
    obtain ⟨_, rr, hrr, he⟩ :=
      (buildCandidates_spec (queryMatching table url keywords 40) []).2 c hc'
    rw [he]
    exact queryMatching_ne_target table url keywords 40 rr hrr
  · exact (buildSuggestionsP0_spec (sortedKeywords keywords) (normalizeUrl url)
      (queryMatching table url keywords 200) [] 0).1
  · intro s hs
    obtain ⟨_, rr, hrr, he⟩ := (buildSuggestionsP0_spec (sortedKeywords keywords)
      (normalizeUrl url) (queryMatching table url keywords 200) [] 0).2 s hs
    rw [he]
    exact queryMatching_ne_target table url keywords 200 rr hrr

/-- C2 counterexample: two distinct matching sentences of the same source
page both become candidates handed to the Confirmer — the current
`analyzeUrl` deduplicates by sentence text, not by source page. -/
theorem candidates_duplicate_source :
    (analyzeCandidates
        [⟨"https://x.com/a", "A", "alpha kw one.", []⟩,
         ⟨"https://x.com/a", "A", "beta kw two.", []⟩]
        "https://x.com/t" ["kw"]).map (fun c => c.sourceUrl)
      = ["https://x.com/a", "https://x.com/a"]
    ∧ ¬ ((analyzeCandidates
        [⟨"https://x.com/a", "A", "alpha kw one.", []⟩,
         ⟨"https://x.com/a", "A", "beta kw two.", []⟩]
        "https://x.com/t" ["kw"]).map (fun c => c.sourceUrl)).Nodup := by
  refine ⟨by decide, by decide⟩

/-- Witness for the amended C2 at a concrete sentence table: the two
candidates drawn from the same source page have distinct sentences, and
neither names the target. -/
theorem retrieval_dedup_witness :
    ((analyzeCandidates
        [⟨"https://x.com/a", "A", "alpha kw one.", []⟩,
         ⟨"https://x.com/a", "A", "beta kw two.", []⟩]
        "https://x.com/t" ["kw"]).map (fun c => c.sentence)).Nodup ∧
    (∀ c ∈ analyzeCandidates
        [⟨"https://x.com/a", "A", "alpha kw one.", []⟩,
         ⟨"https://x.com/a", "A", "beta kw two.", []⟩]
        "https://x.com/t" ["kw"], c.sourceUrl ≠ "https://x.com/t") :=
  ⟨(retrieval_dedup
      [⟨"https://x.com/a", "A", "alpha kw one.", []⟩,
       ⟨"https://x.com/a", "A", "beta kw two.", []⟩]
      "https://x.com/t" ["kw"]).1,
    (retrieval_dedup
      [⟨"https://x.com/a", "A", "alpha kw one.", []⟩,
       ⟨"https://x.com/a", "A", "beta kw two.", []⟩]
      "https://x.com/t" ["kw"]).2.1⟩

/-- C3: the part_000 `analyzeUrl` skips a fragment whose recorded
`existing_links` contain the normalized target, but the current
src/lib/analyze.js `analyzeUrl` never reads `existing_links`, so the same
fragment still becomes a candidate there — contradicting the
buildSentences.js header ("so the analyzer can skip sentences that already
link to the target"). -/
theorem existingLinks_prefilter_divergence :
    (analyzeCandidates
        [⟨"https://x.com/a", "A", "alpha kw beta.", ["https://x.com/t"]⟩]
        "https://x.com/t" ["kw"]).map (fun c => c.sourceUrl) = ["https://x.com/a"]
    ∧ analyzeSuggestionsP0
        [⟨"https://x.com/a", "A", "alpha kw beta.", ["https://x.com/t"]⟩]
        "https://x.com/t" ["kw"] = [] := by
  refine ⟨by decide, by decide⟩

/-! ## Keyword caching (C4) -/

/-- Row of the `pages` table restricted to the fields the keyword phase
touches. -/
structure PageRow where
  url : String
  keywords : Option (List String)
deriving DecidableEq

/-- Keyword phase of the current `analyzeUrl` (src/lib/analyze.js line
154): `extractKeywordsExpanded` is called unconditionally on every run and
the pages store is neither read nor written.  Returns the keywords, the
store, and the number of Groq keyword calls made. -/
def libKeywordStep (pages : List PageRow) (url : String)
    (oracleKw : List String) : List String × List PageRow × Nat :=
  (oracleKw, pages, 1)

/-- Keyword phase of the part_000 `analyzeUrl` (lines 153-173): read
`pages.keywords` for the url; reuse a cached nonempty list without calling
Groq, otherwise call Groq once and cache the result on the existing page
row (`update ... eq('url', url)` touches only existing rows). -/
def p0KeywordStep (pages : List PageRow) (url : String)
    (oracleKw : List String) : List String × List PageRow × Nat :=
  match pages.find? (fun r => r.url = url) with
  | some row =>
    match row.keywords with
    | some ks =>
      if ks ≠ [] then (ks, pages, 0)
      else (oracleKw,
        pages.map (fun r => if r.url = url then { r with keywords := some oracleKw } else r), 1)
    | none =>
      (oracleKw,
        pages.map (fun r => if r.url = url then { r with keywords := some oracleKw } else r), 1)
  | none =>
    (oracleKw,
      pages.map (fun r => if r.url = url then { r with keywords := some oracleKw } else r), 1)

/-- C4: analysing the same url twice, the current src/lib/analyze.js
keyword phase performs two Groq keyword-extraction calls even though the
keywords were already computed, while the part_000 phase caches after the
first run and performs one call in total, as the claim and the
`extractKeywordsExpanded` documentation describe. -/
theorem keywordCache_divergence :
    (libKeywordStep [⟨"https://x.com/t", none⟩] "https://x.com/t" ["kw one"]).2.2
      + (libKeywordStep
          (libKeywordStep [⟨"https://x.com/t", none⟩] "https://x.com/t" ["kw one"]).2.1
          "https://x.com/t" ["kw one"]).2.2 = 2
    ∧ (p0KeywordStep [⟨"https://x.com/t", none⟩] "https://x.com/t" ["kw one"]).2.2
      + (p0KeywordStep
          (p0KeywordStep [⟨"https://x.com/t", none⟩] "https://x.com/t" ["kw one"]).2.1
          "https://x.com/t" ["kw one"]).2.2 = 1 := by
  refine ⟨by decide, by decide⟩

/-! ## Suggestion persistence (saveSuggestions, src/lib/analyze.js lines
207-236; suggestions table, supabase/schema.sql) -/

/-- Row of the `suggestions` table: the content fields plus the review
`status`, the `link_checked` flag and the database-assigned `id` and
`created_at`. -/
structure SuggRow where
  id : Nat
  target_url : String
  target_title : String
  source_url : String
  source_title : String
  suggested_anchor_text : String
  anchor_source : Option String
  context : String
  reason : String
  status : String
  link_checked : Bool
  created_at : Nat
deriving DecidableEq

/-- Payload row built by `saveSuggestions` (lines 219-229): `status` is
always `"pending"` and `link_checked` is absent from the payload. -/
structure SuggPayload where
  target_url : String
  target_title : String
  source_url : String
  source_title : String
  suggested_anchor_text : String
  anchor_source : Option String
  context : String
  reason : String
  status : String
deriving DecidableEq

/-- Models the in-batch dedupe by `sourceUrl` of lines 212-217. -/
def dedupeBySource : List Suggestion → List String → List Suggestion
  | [], _ => []
  | s :: ss, seen =>
    if s.sourceUrl ∈ seen then dedupeBySource ss seen
    else s :: dedupeBySource ss (s.sourceUrl :: seen)

/-- Models the payload-row mapping of lines 219-229. -/
def mkRow (targetUrl targetTitle : String) (s : Suggestion) : SuggPayload :=
  ⟨targetUrl, targetTitle, s.sourceUrl, s.sourceTitle, s.suggestedAnchorText,
    s.anchorSource, s.context, s.reason, "pending"⟩

/-- One row of the PostgREST `upsert ... onConflict: 'target_url,source_url'`
of lines 231-233: on conflict every payload column is overwritten —
including `status` — while columns absent from the payload (`link_checked`,
`id`, `created_at`) keep their stored values; without a conflict a new row
is inserted with the table default `link_checked = false` (the serial id
and timestamp are abstracted as zero; no claim depends on them). -/
def upsertOne (st : List SuggRow) (p : SuggPayload) : List SuggRow :=
  if st.any (fun r => r.target_url = p.target_url ∧ r.source_url = p.source_url) then
    st.map (fun r =>
      if r.target_url = p.target_url ∧ r.source_url = p.source_url then
        { r with target_title := p.target_title, source_title := p.source_title,
                 suggested_anchor_text := p.suggested_anchor_text,
                 anchor_source := p.anchor_source, context := p.context,
                 reason := p.reason, status := p.status }
      else r)
  else
    st ++ [⟨0, p.target_url, p.target_title, p.source_url, p.source_title,
      p.suggested_anchor_text, p.anchor_source, p.context, p.reason, p.status, false, 0⟩]

/-- Models `saveSuggestions` (src/lib/analyze.js lines 207-236): empty
input is a no-op; otherwise the batch is deduplicated by source url and
upserted. -/
def saveSuggestions (targetUrl targetTitle : String)
    (suggestions : List Suggestion) (st : List SuggRow) : List SuggRow :=
  if suggestions = [] then st
  else ((dedupeBySource suggestions []).map (mkRow targetUrl targetTitle)).foldl upsertOne st

theorem upsertOne_preserves (st : List SuggRow) (p : SuggPayload) :
    ∀ r ∈ st, ∃ r' ∈ upsertOne st p, r'.id = r.id ∧ r'.target_url = r.target_url
      ∧ r'.source_url = r.source_url ∧ r'.link_checked = r.link_checked := by
  intro r hr
  unfold upsertOne
  by_cases hc : st.any (fun r => r.target_url = p.target_url ∧ r.source_url = p.source_url) = true
  · rw [if_pos hc]
    by_cases hk : r.target_url = p.target_url ∧ r.source_url = p.source_url
    · refine ⟨_, List.mem_map_of_mem _ hr, ?_⟩
      rw [if_pos hk]
      exact ⟨rfl, by simp [hk.1], by simp [hk.2], rfl⟩
    · refine ⟨_, List.mem_map_of_mem _ hr, ?_⟩
      rw [if_neg hk]
      exact ⟨rfl, rfl, rfl, rfl⟩
  · rw [if_neg hc]
    exact ⟨r, by simp [hr], rfl, rfl, rfl, rfl⟩

theorem foldl_upsert_preserves (ps : List SuggPayload) (st : List SuggRow) :
    ∀ r ∈ st, ∃ r' ∈ ps.foldl upsertOne st, r'.id = r.id ∧ r'.target_url = r.target_url
      ∧ r'.source_url = r.source_url ∧ r'.link_checked = r.link_checked := by
  induction ps generalizing st with
  | nil => exact fun r hr => ⟨r, hr, rfl, rfl, rfl, rfl⟩
  | cons p ps ih =>
    intro r hr
    obtain ⟨r1, hr1, e1, e2, e3, e4⟩ := upsertOne_preserves st p r hr
    obtain ⟨r', hr', f1, f2, f3, f4⟩ := ih (upsertOne st p) r1 hr1
    exact ⟨r', hr', by rw [f1, e1], by rw [f2, e2], by rw [f3, e3], by rw [f4, e4]⟩

theorem upsertOne_status (st : List SuggRow) (p : SuggPayload)
    (hp : p.status = "pending") :
    ∀ r' ∈ upsertOne st p,
      r'.status = "pending" ∨ ∃ r ∈ st, r.id = r'.id ∧ r.status = r'.status := by
  intro r' hr'
  unfold upsertOne at hr'
  by_cases hc : st.any (fun r => r.target_url = p.target_url ∧ r.source_url = p.source_url) = true
  · rw [if_pos hc] at hr'
    obtain ⟨r, hr, rfl⟩ := List.mem_map.1 hr'
    by_cases hk : r.target_url = p.target_url ∧ r.source_url = p.source_url
    · rw [if_pos hk]
      exact Or.inl hp
    · rw [if_neg hk]
      exact Or.inr ⟨r, hr, rfl, rfl⟩
  · rw [if_neg hc] at hr'
    rcases List.mem_append.1 hr' with h | h
    · exact Or.inr ⟨r', h, rfl, rfl⟩
    · rcases List.mem_singleton.1 h with rfl
      exact Or.inl hp

theorem foldl_upsert_status (ps : List SuggPayload) (st : List SuggRow)
    (hps : ∀ p ∈ ps, p.status = "pending") :
    ∀ r' ∈ ps.foldl upsertOne st,
      r'.status = "pending" ∨ ∃ r ∈ st, r.id = r'.id ∧ r.status = r'.status := by
  induction ps generalizing st with
  | nil => exact fun r' hr' => Or.inr ⟨r', hr', rfl, rfl⟩
  | cons p ps ih =>
    intro r' hr'
    rcases ih (upsertOne st p) (fun q hq => hps q (by simp [hq])) r' hr' with h | ⟨r1, hr1, e1, e2⟩
    · exact Or.inl h
    · rcases upsertOne_status st p (hps p (by simp)) r1 hr1 with h | ⟨r, hr, f1, f2⟩
      · exact Or.inl (by rw [← e2, h])
      · exact Or.inr ⟨r, hr, by rw [f1, e1], by rw [f2, e2]⟩

/-- C1 (amended): re-persisting suggestions never deletes an existing row
and never changes any row's `link_checked` value, but a conflicting upsert
does overwrite the content fields and resets the row's `status` to
`"pending"` (the payload carries `status: 'pending'`); every row of the
result either has status `"pending"` or carries the unchanged status of the
corresponding pre-existing row. -/
theorem saveSuggestions_frame (targetUrl targetTitle : String)
    (sgs : List Suggestion) (st : List SuggRow) :
    (∀ r ∈ st, ∃ r' ∈ saveSuggestions targetUrl targetTitle sgs st,
        r'.id = r.id ∧ r'.target_url = r.target_url ∧ r'.source_url = r.source_url
          ∧ r'.link_checked = r.link_checked)
    ∧ (∀ r' ∈ saveSuggestions targetUrl targetTitle sgs st,
        r'.status = "pending" ∨ ∃ r ∈ st, r.id = r'.id ∧ r.status = r'.status) := by
  unfold saveSuggestions
  by_cases he : sgs = []
  · rw [if_pos he]
    exact ⟨fun r hr => ⟨r, hr, rfl, rfl, rfl, rfl⟩,
      fun r' hr' => Or.inr ⟨r', hr', rfl, rfl⟩⟩
  · rw [if_neg he]
    refine ⟨foldl_upsert_preserves _ st, foldl_upsert_status _ st ?_⟩
    intro p hp
    obtain ⟨s, _, rfl⟩ := List.mem_map.1 hp
    rfl

/-- C1 counterexample: upserting a fresh analysis of the pair
(`https://x.com/t`, `https://x.com/s`) over a row that a human already
marked `accepted` resets its reviewStatus to `pending` (while
`link_checked` is indeed untouched), so re-analysis does change
`reviewStatus`. -/
theorem saveSuggestions_resets_status :
    (saveSuggestions "https://x.com/t" "T2"
        [⟨"https://x.com/s", "S2", "anchor", some "title", "ctx2", "why"⟩]
        [⟨1, "https://x.com/t", "T", "https://x.com/s", "S", "a", none,
          "ctx", "r", "accepted", true, 5⟩]).map (fun r => (r.status, r.link_checked))
      = [("pending", true)]
    ∧ ([⟨1, "https://x.com/t", "T", "https://x.com/s", "S", "a", none,
          "ctx", "r", "accepted", true, 5⟩] : List SuggRow).map
        (fun r => (r.status, r.link_checked)) = [("accepted", true)] := by
  refine ⟨by decide, by decide⟩

/-- Witness for the amended C1 at a concrete store. -/
theorem saveSuggestions_frame_witness :
    ((⟨1, "https://x.com/t", "T", "https://x.com/s", "S", "a", none,
        "ctx", "r", "accepted", true, 5⟩ : SuggRow) ∈
      ([⟨1, "https://x.com/t", "T", "https://x.com/s", "S", "a", none,
        "ctx", "r", "accepted", true, 5⟩] : List SuggRow))
    ∧ (∃ r' ∈ saveSuggestions "https://x.com/t" "T2"
          [⟨"https://x.com/s", "S2", "anchor", some "title", "ctx2", "why"⟩]
          [⟨1, "https://x.com/t", "T", "https://x.com/s", "S", "a", none,
            "ctx", "r", "accepted", true, 5⟩],
        r'.id = 1 ∧ r'.target_url = "https://x.com/t" ∧ r'.source_url = "https://x.com/s"
          ∧ r'.link_checked = true) :=
  ⟨by decide,
    (saveSuggestions_frame "https://x.com/t" "T2"
      [⟨"https://x.com/s", "S2", "anchor", some "title", "ctx2", "why"⟩]
      [⟨1, "https://x.com/t", "T", "https://x.com/s", "S", "a", none,
        "ctx", "r", "accepted", true, 5⟩]).1
      ⟨1, "https://x.com/t", "T", "https://x.com/s", "S", "a", none,
        "ctx", "r", "accepted", true, 5⟩ (by decide)⟩

/-! ## Deferred link checking (processLinkChecks, src/lib/analyze.js lines
250-289; fetchSourceHrefs, lines 87-106) -/

/-- Pending-row selection of `processLinkChecks` (lines 251-257): rows with
status `pending` that are not yet link-checked, ordered by `created_at`
ascending (the stable sort matches the database order up to ties),
limited to the batch size. -/
def selectPending (st : List SuggRow) (batchSize : Nat) : List SuggRow :=
  (sortStable (fun a b => a.created_at < b.created_at)
    (st.filter (fun r => r.status = "pending" ∧ r.link_checked = false))).take batchSize

/-- One iteration of the `processLinkChecks` loop (lines 268-285) for the
selected suggestion `s`.  `fetchRes` gives the outcome of
`fetchSourceHrefs` for a source page: `.ok` carries the set of the page's
normalized outbound links, `.error` stands for any fetch failure (timeout,
network error, non-2xx).  On success with the normalized target among the
links the row is deleted; on success without the target, and equally on any
fetch failure, the row is kept with `link_checked := true` and nothing else
changed. -/
def linkCheckStep (fetchRes : String → Except String (List String))
    (st : List SuggRow) (s : SuggRow) : List SuggRow :=
  match fetchRes s.source_url with
  | .ok hrefs =>
    if normalizeUrl s.target_url ∈ hrefs then st.filter (fun r => r.id ≠ s.id)
    else st.map (fun r => if r.id = s.id then { r with link_checked := true } else r)
  | .error _ => st.map (fun r => if r.id = s.id then { r with link_checked := true } else r)

/-- Models `processLinkChecks` (lines 250-289): select a bounded batch of
unchecked pending suggestions and process them sequentially. -/
def processLinkChecks (fetchRes : String → Except String (List String))
    (batchSize : Nat) (st : List SuggRow) : List SuggRow :=
  (selectPending st batchSize).foldl (linkCheckStep fetchRes) st

theorem filter_id_filter_ne (j i : Nat) (hne : j ≠ i) (st : List SuggRow) :
    (st.filter (fun r => r.id ≠ j)).filter (fun r => r.id = i)
      = st.filter (fun r => r.id = i) := by
  induction st with
  | nil => rfl
  | cons a as ih =>
    simp only [List.filter_cons, decide_eq_true_eq]
    by_cases hj : a.id = j
    · have hni : ¬ a.id = i := by omega
      rw [if_neg (by simp [hj]), if_neg hni]
      exact ih
    · rw [if_pos hj]
      simp only [List.filter_cons, decide_eq_true_eq]
      by_cases hi : a.id = i
      · rw [if_pos hi, if_pos hi, ih]
      · rw [if_neg hi, if_neg hi, ih]

theorem filter_id_map_ne (j i : Nat) (hne : j ≠ i) (st : List SuggRow) :
    ((st.map (fun r => if r.id = j then { r with link_checked := true } else r)).filter
        (fun r => r.id = i))
      = st.filter (fun r => r.id = i) := by
  induction st with
  | nil => rfl
  | cons a as ih =>
    simp only [List.map_cons, List.filter_cons, decide_eq_true_eq]
    by_cases hj : a.id = j
    · have hni : ¬ a.id = i := by omega
      rw [if_pos hj]
      rw [if_neg (show ¬ ({ a with link_checked := true } : SuggRow).id = i from hni),
        if_neg hni]
      exact ih
    · rw [if_neg hj]
      by_cases hi : a.id = i
      · rw [if_pos hi, if_pos hi, ih]
      · rw [if_neg hi, if_neg hi, ih]

theorem filter_id_map_same (j : Nat) (st : List SuggRow) :
    ((st.map (fun r => if r.id = j then { r with link_checked := true } else r)).filter
        (fun r => r.id = j))
      = (st.filter (fun r => r.id = j)).map
          (fun r => { r with link_checked := true }) := by
  induction st with
  | nil => rfl
  | cons a as ih =>
    simp only [List.map_cons, List.filter_cons, decide_eq_true_eq]
    by_cases hj : a.id = j
    · rw [if_pos hj,
        if_pos (show ({ a with link_checked := true } : SuggRow).id = j from hj),
        if_pos hj]
      simp only [List.map_cons]
      rw [ih]
    · rw [if_neg hj, if_neg hj, if_neg hj, ih]

theorem filter_ne_self_nil (j : Nat) (st : List SuggRow) :
    (st.filter (fun r => r.id ≠ j)).filter (fun r => r.id = j) = [] := by
  induction st with
  | nil => rfl
  | cons a as ih =>
    simp only [List.filter_cons, decide_eq_true_eq]
    by_cases hj : a.id = j
    · rw [if_neg (by simp [hj])]
      exact ih
    · rw [if_pos hj]
      simp only [List.filter_cons, decide_eq_true_eq]
      rw [if_neg hj]
      exact ih

/-- Processing a suggestion with a different id leaves the rows of a given
id untouched. -/
theorem linkCheckStep_keep (f : String → Except String (List String))
    (t : SuggRow) (i : Nat) (hne : t.id ≠ i) (st : List SuggRow) :
    (linkCheckStep f st t).filter (fun r => r.id = i)
      = st.filter (fun r => r.id = i) := by
  rcases hfe : f t.source_url with e | hrefs
  · simp only [linkCheckStep, hfe]
    exact filter_id_map_ne t.id i hne st
  · simp only [linkCheckStep, hfe]
    by_cases h : normalizeUrl t.target_url ∈ hrefs
    · rw [if_pos h]
      exact filter_id_filter_ne t.id i hne st
    · rw [if_neg h]
      exact filter_id_map_ne t.id i hne st

theorem foldl_linkCheck_keep (f : String → Except String (List String))
    (items : List SuggRow) (i : Nat) (h : ∀ t ∈ items, t.id ≠ i)
    (st : List SuggRow) :
    (items.foldl (linkCheckStep f) st).filter (fun r => r.id = i)
      = st.filter (fun r => r.id = i) := by
  induction items generalizing st with
  | nil => rfl
  | cons t ts ih =>
    rw [List.foldl_cons, ih (fun q hq => h q (by simp [hq])),
      linkCheckStep_keep f t i (h t (by simp)) st]

/-- In a store with distinct ids, filtering on a member's id yields exactly
that row. -/
theorem filter_id_of_nodup {st : List SuggRow} {r : SuggRow}
    (hmem : r ∈ st) (hnodup : (st.map (fun x => x.id)).Nodup) :
    st.filter (fun x => x.id = r.id) = [r] := by
  induction st with
  | nil => simp at hmem
  | cons a as ih =>
    simp only [List.map_cons, List.nodup_cons] at hnodup
    rcases List.mem_cons.1 hmem with heq | hmem'
    · subst heq
      have hnil : as.filter (fun x => x.id = r.id) = [] := by
        rw [List.filter_eq_nil_iff]
        intro x hx hid
        simp only [decide_eq_true_eq] at hid
        exact hnodup.1 (List.mem_map.2 ⟨x, hx, hid⟩)
      simp [List.filter_cons, hnil]
    · have hne : ¬ a.id = r.id := by
        intro he
        exact hnodup.1 (List.mem_map.2 ⟨r, hmem', he.symm⟩)
      simp only [List.filter_cons, decide_eq_true_eq]
      rw [if_neg hne]
      exact ih hmem' hnodup.2

/-- Selected rows come from the store, and their ids are distinct when the
store's are. -/
theorem selectPending_sub (st : List SuggRow) (batchSize : Nat) :
    (∀ s ∈ selectPending st batchSize, s ∈ st)
    ∧ ((st.map (fun r => r.id)).Nodup →
        ((selectPending st batchSize).map (fun r => r.id)).Nodup) := by
  have hperm : (sortStable (fun a b => a.created_at < b.created_at)
      (st.filter (fun r => r.status = "pending" ∧ r.link_checked = false))).Perm
      (st.filter (fun r => r.status = "pending" ∧ r.link_checked = false)) :=
    sortStable_perm _ _
  constructor
  · intro s hs
    have h1 := List.mem_of_mem_take hs
    have h2 := hperm.mem_iff.1 h1
    exact List.mem_of_mem_filter h2
  · intro hnodup
    have hfil : ((st.filter (fun r => r.status = "pending" ∧ r.link_checked = false)).map
        (fun r => r.id)).Nodup :=
      ((List.filter_sublist st).map _).nodup hnodup
    have hms : ((sortStable (fun a b => a.created_at < b.created_at)
        (st.filter (fun r => r.status = "pending" ∧ r.link_checked = false))).map
          (fun r => r.id)).Nodup :=
      ((hperm.map _).nodup_iff).2 hfil
    exact ((List.take_sublist _ _).map _).nodup hms

/-- C6: for every suggestion selected by a deferred link-check pass over a
store with distinct row ids: if the fetched source page's normalized
outbound links contain the normalized target the row is deleted; if they do
not, the row is retained with `link_checked := true` and every other field
— `status` included — unchanged; and if the fetch fails for any reason the
row is likewise retained with `link_checked := true` (fail-open), not
deleted. -/
theorem processLinkChecks_outcome (f : String → Except String (List String))
    (batchSize : Nat) (st : List SuggRow)
    (hnodup : (st.map (fun r => r.id)).Nodup)
    (s : SuggRow) (hs : s ∈ selectPending st batchSize) :
    (∀ hrefs, f s.source_url = .ok hrefs → normalizeUrl s.target_url ∈ hrefs →
      (processLinkChecks f batchSize st).filter (fun r => r.id = s.id) = [])
    ∧ (∀ hrefs, f s.source_url = .ok hrefs → normalizeUrl s.target_url ∉ hrefs →
      (processLinkChecks f batchSize st).filter (fun r => r.id = s.id)
        = [{ s with link_checked := true }])
    ∧ (∀ e, f s.source_url = .error e →
      (processLinkChecks f batchSize st).filter (fun r => r.id = s.id)
        = [{ s with link_checked := true }]) := by
  obtain ⟨p1, p2, hsplit⟩ := List.append_of_mem hs
  have hsmem : s ∈ st := (selectPending_sub st batchSize).1 s hs
  have hpnodup : ((selectPending st batchSize).map (fun r => r.id)).Nodup :=
    (selectPending_sub st batchSize).2 hnodup
  rw [hsplit, List.map_append] at hpnodup
  have hdisj := List.disjoint_of_nodup_append hpnodup
  have hnd2 := hpnodup.of_append_right
  rw [List.map_cons] at hdisj hnd2
  have hp1ne : ∀ t ∈ p1, t.id ≠ s.id := by
    intro t ht he
    exact hdisj (List.mem_map.2 ⟨t, ht, rfl⟩) (by rw [he]; exact List.mem_cons_self _ _)
  have hp2ne : ∀ t ∈ p2, t.id ≠ s.id := by
    intro t ht he
    exact (List.nodup_cons.1 hnd2).1 (List.mem_map.2 ⟨t, ht, he⟩)
  have hbase : processLinkChecks f batchSize st
      = p2.foldl (linkCheckStep f) (linkCheckStep f (p1.foldl (linkCheckStep f) st) s) := by
    rw [processLinkChecks, hsplit, List.foldl_append, List.foldl_cons]
  have hmid : (p1.foldl (linkCheckStep f) st).filter (fun r => r.id = s.id) = [s] := by
    rw [foldl_linkCheck_keep f p1 s.id hp1ne st]
    exact filter_id_of_nodup hsmem hnodup
  refine ⟨?_, ?_, ?_⟩
  · intro hrefs hok hin
    rw [hbase, foldl_linkCheck_keep f p2 s.id hp2ne]
    simp only [linkCheckStep, hok]
    rw [if_pos hin]
    exact filter_ne_self_nil s.id _
  · intro hrefs hok hnin
    rw [hbase, foldl_linkCheck_keep f p2 s.id hp2ne]
    simp only [linkCheckStep, hok]
    rw [if_neg hnin, filter_id_map_same, hmid]
    rfl
  · intro e herr
    rw [hbase, foldl_linkCheck_keep f p2 s.id hp2ne]
    simp only [linkCheckStep, herr]
    rw [filter_id_map_same, hmid]
    rfl

/-- Witness for C6: a one-row store whose source page fetch succeeds
without the target link — the row is kept, verified, status unchanged. -/
theorem processLinkChecks_outcome_witness :
    (([⟨7, "https://x.com/t", "T", "https://x.com/s", "S", "a", none,
        "ctx", "r", "pending", false, 3⟩] : List SuggRow).map (fun r => r.id)).Nodup
    ∧ (⟨7, "https://x.com/t", "T", "https://x.com/s", "S", "a", none,
        "ctx", "r", "pending", false, 3⟩ : SuggRow) ∈
        selectPending [⟨7, "https://x.com/t", "T", "https://x.com/s", "S", "a", none,
          "ctx", "r", "pending", false, 3⟩] 3
    ∧ (processLinkChecks (fun _ => .ok ["https://x.com/other"]) 3
        [⟨7, "https://x.com/t", "T", "https://x.com/s", "S", "a", none,
          "ctx", "r", "pending", false, 3⟩]).filter (fun r => r.id = 7)
      = [⟨7, "https://x.com/t", "T", "https://x.com/s", "S", "a", none,
          "ctx", "r", "pending", true, 3⟩] :=
  ⟨by decide, by decide,
    (processLinkChecks_outcome (fun _ => .ok ["https://x.com/other"]) 3
      [⟨7, "https://x.com/t", "T", "https://x.com/s", "S", "a", none,
        "ctx", "r", "pending", false, 3⟩] (by decide)
      ⟨7, "https://x.com/t", "T", "https://x.com/s", "S", "a", none,
        "ctx", "r", "pending", false, 3⟩ (by decide)).2.1
      ["https://x.com/other"] rfl (by decide)⟩

/-! ## Suggestion Confirmer response decoding (confirmSuggestions,
src/lib/groq.js lines 144-203) -/

/-- Structured data decoded from an oracle response. -/
inductive Json where
  | null : Json
  | bool : Bool → Json
  | num : Int → Json
  | str : String → Json
  | arr : List Json → Json
  | obj : List (String × Json) → Json

/-- Partially built containers of the JSON parser: an array collecting
reversed items, or an object collecting reversed fields with the key whose
value is being read. -/
inductive JFrame where
  | arrF : List Json → JFrame
  | objF : List (String × Json) → String → JFrame

/-- JSON whitespace skip (space, tab, CR, LF). -/
def skipWs (s : Chars) : Chars := s.dropWhile (fun c => c.isWhitespace)

/-- Consumes an exact literal. -/
def parseLit (lit s : Chars) : Option Chars :=
  if lit.isPrefixOf s then some (s.drop lit.length) else none

/-- Body of a JSON string after the opening quote; escapes are outside the
modeled subset. -/
def parseStrBody (acc : Chars) : Chars → Option (String × Chars)
  | [] => none
  | c :: rest =>
    if c = '"' then some (⟨acc.reverse⟩, rest)
    else if c = '\\' then none
    else parseStrBody (c :: acc) rest

/-- Digit run to a natural number. -/
def digitsToNat (ds : Chars) : Nat := ds.foldl (fun acc c => 10 * acc + (c.toNat - 48)) 0

/-- Integer literal (optional minus, digit run); fractions and exponents
are outside the modeled subset. -/
def jnumParse (s : Chars) : Option (Json × Chars) :=
  match s with
  | '-' :: rest =>
    let ds := rest.takeWhile (fun c => c.isDigit)
    if ds = [] then none
    else some (Json.num (-(digitsToNat ds : Int)), rest.drop ds.length)
  | _ =>
    let ds := s.takeWhile (fun c => c.isDigit)
    if ds = [] then none
    else some (Json.num (digitsToNat ds : Int), s.drop ds.length)

/-- Fuel-indexed JSON parsing loop: with `none` pending it expects a value,
with `some v` it unwinds `v` into the enclosing container on the stack; at
an empty stack the remaining input must be whitespace. -/
def parseGo : Nat → Option Json → List JFrame → Chars → Option Json
  | 0, _, _, _ => none
  | Nat.succ fuel, none, stack, s0 =>
    let s := skipWs s0
    match parseLit "null".data s with
    | some r => parseGo fuel (some Json.null) stack r
    | none =>
      match parseLit "true".data s with
      | some r => parseGo fuel (some (Json.bool true)) stack r
      | none =>
        match parseLit "false".data s with
        | some r => parseGo fuel (some (Json.bool false)) stack r
        | none =>
          match s with
          | '"' :: rest =>
            match parseStrBody [] rest with
            | some (str, r) => parseGo fuel (some (Json.str str)) stack r
            | none => none
          | '[' :: rest =>
            match skipWs rest with
            | ']' :: r3 => parseGo fuel (some (Json.arr [])) stack r3
            | _ => parseGo fuel none (JFrame.arrF [] :: stack) rest
          | '{' :: rest =>
            match skipWs rest with
            | '}' :: r3 => parseGo fuel (some (Json.obj [])) stack r3
            | '"' :: r3 =>
              match parseStrBody [] r3 with
              | some (key, r4) =>
                match skipWs r4 with
                | ':' :: r5 => parseGo fuel none (JFrame.objF [] key :: stack) r5
                | _ => none
              | none => none
            | _ => none
          | other =>
            match jnumParse other with
            | some (v, r) => parseGo fuel (some v) stack r
            | none => none
  | Nat.succ fuel, some v, stack, s =>
    match stack with
    | [] => if skipWs s = [] then some v else none
    | JFrame.arrF items :: stack2 =>
      match skipWs s with
      | ',' :: r => parseGo fuel none (JFrame.arrF (v :: items) :: stack2) r
      | ']' :: r => parseGo fuel (some (Json.arr (v :: items).reverse)) stack2 r
      | _ => none
    | JFrame.objF fields key :: stack2 =>
      match skipWs s with
      | ',' :: r =>
        match skipWs r with
        | '"' :: r2 =>
          match parseStrBody [] r2 with
          | some (key2, r3) =>
            match skipWs r3 with
            | ':' :: r4 =>
              parseGo fuel none (JFrame.objF ((key, v) :: fields) key2 :: stack2) r4
            | _ => none
          | none => none
        | _ => none
      | '}' :: r => parseGo fuel (some (Json.obj ((key, v) :: fields).reverse)) stack2 r
      | _ => none

/-- Models the platform `JSON.parse` on the subset used here: null,
booleans, integers, escape-free strings, arrays and objects (string escapes,
fractional and exponent numbers are outside the modeled subset). -/
def parseJsonS (raw : String) : Option Json :=
  parseGo (raw.data.length + 1) none [] raw.data

/-- Index of the first occurrence of a character. -/
def idxOfFirst (c : Char) (s : Chars) : Option Nat := s.findIdx? (fun x => x = c)

/-- Index of the last occurrence of a character. -/
def idxOfLast (c : Char) (s : Chars) : Option Nat :=
  (s.reverse.findIdx? (fun x => x = c)).map (fun i => s.length - 1 - i)

/-- Models the greedy regex match `raw.match(/\[[\s\S]*\]/)` of
src/lib/groq.js line 199: the substring from the first `[` to the last `]`
when the latter comes after the former, otherwise no match. -/
def extractBracket (raw : String) : Option String :=
  match idxOfFirst '[' raw.data, idxOfLast ']' raw.data with
  | some p, some q => if p < q then some ⟨(raw.data.drop p).take (q - p + 1)⟩ else none
  | _, _ => none

/-- Decode phase of `confirmSuggestions` (src/lib/groq.js lines 195-202):
try `JSON.parse` on the raw response; on failure make exactly one repair
attempt parsing the greedy regex match (first `[` to last `]`).  If the
regex does not match the custom error is thrown; if the matched substring
fails to parse, the second `JSON.parse` exception escapes the catch block —
either way the error reaches the caller, fatal to that analysis run and not
retried. -/
def confirmDecode (raw : String) : Except String Json :=
  match parseJsonS raw with
  | some v => .ok v
  | none =>
    match extractBracket raw with
    | some sub =>
      match parseJsonS sub with
      | some v => .ok v
      | none => .error "SyntaxError: unexpected token in JSON"
    | none => .error ("Failed to parse suggestions JSON from Groq: " ++ raw)

/-- Modelled from the spec: "extracting the first well-formed structured
region from surrounding text" / "the first bracket-delimited structured
region" — the first (by start position, then by length) substring that
begins with `[`, ends with `]` and parses as structured data.  Used only to
compare the specified repair with the implemented one. -/
def firstWellFormedRegion (raw : String) : Option String :=
  (List.range raw.data.length).findSome? (fun p =>
    (List.range raw.data.length).findSome? (fun len =>
      let sub := (raw.data.drop p).take (len + 1)
      if sub.head? = some '[' ∧ sub.getLast? = some ']'
          ∧ (parseJsonS ⟨sub⟩).isSome = true
      then some (⟨sub⟩ : String) else none))

/-- C9 counterexample: on the response text `"[a] [1]"` the implemented
repair parses the greedy substring `"[a] [1]"` (first `[` to last `]`) and
fails, so the Confirmer raises an error — although the first well-formed
bracket-delimited region `"[1]"` exists and decodes, which is what the
claim says the repair extracts. -/
theorem confirmDecode_not_first_region :
    confirmDecode "[a] [1]" = .error "SyntaxError: unexpected token in JSON"
    ∧ extractBracket "[a] [1]" = some "[a] [1]"
    ∧ firstWellFormedRegion "[a] [1]" = some "[1]"
    ∧ parseJsonS "[1]" = some (Json.arr [Json.num 1]) :=
  ⟨rfl, rfl, rfl, rfl⟩

/-- C9 (amended): a response that parses as JSON is returned decoded;
otherwise exactly one repair attempt parses the substring from the first
`[` to the last `]` (the greedy regex match, not the first well-formed
region), returning its decode on success; if no such substring exists, or
it fails to parse, the Confirmer raises an error that is fatal to that
analysis run and is not retried internally. -/
theorem confirmDecode_spec (raw : String) :
    (∀ v, parseJsonS raw = some v → confirmDecode raw = .ok v)
    ∧ (∀ sub v, parseJsonS raw = none → extractBracket raw = some sub →
        parseJsonS sub = some v → confirmDecode raw = .ok v)
    ∧ (∀ sub, parseJsonS raw = none → extractBracket raw = some sub →
        parseJsonS sub = none →
        confirmDecode raw = .error "SyntaxError: unexpected token in JSON")
    ∧ (parseJsonS raw = none → extractBracket raw = none →
        confirmDecode raw = .error ("Failed to parse suggestions JSON from Groq: " ++ raw)) := by
  refine ⟨?_, ?_, ?_, ?_⟩ <;> intros <;> simp [confirmDecode, *]

/-- Witness for the amended C9: a response with surrounding noise is
salvaged by the repair parse. -/
theorem confirmDecode_spec_witness :
    parseJsonS "noise [1, 2] end" = none
    ∧ confirmDecode "noise [1, 2] end" = .ok (Json.arr [Json.num 1, Json.num 2]) :=
  ⟨rfl, (confirmDecode_spec "noise [1, 2] end").2.1 "[1, 2]"
      (Json.arr [Json.num 1, Json.num 2]) rfl rfl rfl⟩

end Backlinker
